import Mathlib

/-!
Verification of the toytree core: tree data model, coordinate layout engine
(src/toytree/core/layout.py) and consensus engine
(src/toytree/src/multitree.py, delegating to toytree.src.consensus).

The tree data model (Node/ToyTree classes) is not part of the provided
sources; it is modelled from the specification (section 3).  Every function
of layout.py and multitree.py used by a claim is embedded below; floating
point arithmetic is modelled over the reals.
-/

set_option maxHeartbeats 1000000
set_option maxRecDepth 4000

/-- Modelled from the spec: a Node of the tree data model (section 3).
A node owns a `name`, a branch length `dist` (a float, modelled as a real),
an ordered list of `children`, and dynamically assigned feature slots.
The two dynamic attributes written by `equal_angle_algorithm`
(`node.radian_sum`, `node.sector`, src/toytree/core/layout.py lines 254-272)
are carried as optional fields, `none` meaning "attribute not set". -/
inductive PhyloNode : Type where
  | mk (name : String) (dist : ℝ) (radian_sum : Option ℝ)
       (sector : Option (ℝ × ℝ)) (children : List PhyloNode)

/-- The `name` attribute of a Node. -/
def PhyloNode.name : PhyloNode → String
  | .mk n _ _ _ _ => n

/-- The `dist` attribute of a Node (branch length to its parent). -/
def PhyloNode.dist : PhyloNode → ℝ
  | .mk _ d _ _ _ => d

/-- The dynamic `radian_sum` attribute written by `equal_angle_algorithm`. -/
def PhyloNode.radian_sum : PhyloNode → Option ℝ
  | .mk _ _ r _ _ => r

/-- The dynamic `sector` attribute written by `equal_angle_algorithm`. -/
def PhyloNode.sector : PhyloNode → Option (ℝ × ℝ)
  | .mk _ _ _ s _ => s

/-- The ordered `children` list of a Node (order is plotting order). -/
def PhyloNode.children : PhyloNode → List PhyloNode
  | .mk _ _ _ _ cs => cs

/-- `Node.is_leaf()`: a leaf is a Node with zero children (spec section 3). -/
def PhyloNode.is_leaf (t : PhyloNode) : Bool :=
  t.children.isEmpty

mutual

/-- Modelled from the spec: `tree.ntips`, the number of tip (leaf) nodes
descended from this node. -/
def ntipsOf : PhyloNode → Nat
  | .mk _ _ _ _ [] => 1
  | .mk _ _ _ _ (c :: cs) => ntipsList (c :: cs)

/-- Total tip count of a list of sibling subtrees. -/
def ntipsList : List PhyloNode → Nat
  | [] => 0
  | c :: cs => ntipsOf c + ntipsList cs

end

mutual

/-- Modelled from the spec: `tree.get_tip_labels()`, the tip names in
left-to-right plotting order (stored child order). -/
def leafNames : PhyloNode → List String
  | .mk n _ _ _ [] => [n]
  | .mk _ _ _ _ (c :: cs) => leafNamesList (c :: cs)

/-- Tip names of a list of sibling subtrees, left to right. -/
def leafNamesList : List PhyloNode → List String
  | [] => []
  | c :: cs => leafNames c ++ leafNamesList cs

end

/-- Modelled from the spec: `get_leaves(node)` as a set of tip names
(used for bipartition / clade membership tests, spec section 3). -/
def leafSetOf (t : PhyloNode) : Finset String :=
  (leafNames t).toFinset

/-- A clade: the set of tip names descended from a node (spec glossary). -/
abbrev Clade := Finset String

mutual

/-- Modelled from the spec: the clades of a tree, one per internal node
(the frozen set of tip names descended from it), spec section 4.3 step 2.
The root of a non-trivial tree is an internal node, so the full tip set is
always listed. -/
def cladesOf : PhyloNode → List Clade
  | .mk _ _ _ _ [] => []
  | .mk n d r s (c :: cs) =>
      leafSetOf (.mk n d r s (c :: cs)) :: cladesList (c :: cs)

/-- Clades contributed by a list of sibling subtrees. -/
def cladesList : List PhyloNode → List Clade
  | [] => []
  | c :: cs => cladesOf c ++ cladesList cs

end

/-- Look up the descendant node reached from `t` by taking the child with
the given index at each step (node identity as a root-to-node path). -/
def subtreeAt : List Nat → PhyloNode → Option PhyloNode
  | [], t => some t
  | i :: p, t =>
      match t.children[i]? with
      | some c => subtreeAt p c
      | none => none

example : ntipsOf (.mk "A" 1 none none []) = 1 := by decide
example : leafNames (.mk "x" 1 none none [.mk "A" 1 none none [], .mk "B" 1 none none []]) = ["A", "B"] := by decide

/-! ## Layout engine (src/toytree/core/layout.py) -/

/-- Modelled from the spec: the style parameters consumed by the layout
engine (spec section 4.2): an orientation selector `layout` (the source
uses the one-character codes r, l, u, d plus c and * for the radial and
unrooted modes), `use_edge_lengths`, and the baseline offsets. -/
structure TreeStyle where
  layout : Char
  use_edge_lengths : Bool
  xbaseline : ℝ
  ybaseline : ℝ

/-- Errors raised by the layout engine: the `assert` on fixed argument
lengths, the `ToytreeError` for a fixed-order name missing from the tree
(layout.py line 176), and the `NotImplementedError` for radial layouts
(layout.py line 138). -/
inductive LayoutError : Type where
  | assertionError
  | unknownTip (name : String)
  | notImplemented
  deriving DecidableEq, Repr

mutual

/-- Modelled from the spec: root-to-node paths of the tip nodes in
left-to-right plotting order (`idxorder` indices 0..ntips-1). -/
def tipPaths : PhyloNode → List (List Nat)
  | .mk _ _ _ _ [] => [[]]
  | .mk _ _ _ _ (c :: cs) => tipPathsList 0 (c :: cs)

/-- Tip paths of sibling subtrees, the first sibling having child index i. -/
def tipPathsList : Nat → List PhyloNode → List (List Nat)
  | _, [] => []
  | i, c :: cs => (tipPaths c).map (fun p => i :: p) ++ tipPathsList (i + 1) cs

end

mutual

/-- Modelled from the spec: root-to-node paths of the internal nodes in
postorder, so that every node's row comes after all of its children's
(`idxorder` indices ntips..nnodes-1). -/
def internalPostPaths : PhyloNode → List (List Nat)
  | .mk _ _ _ _ [] => []
  | .mk _ _ _ _ (c :: cs) => internalPostPathsList 0 (c :: cs) ++ [[]]

/-- Internal-node postorder paths of sibling subtrees. -/
def internalPostPathsList : Nat → List PhyloNode → List (List Nat)
  | _, [] => []
  | i, c :: cs =>
      (internalPostPaths c).map (fun p => i :: p) ++ internalPostPathsList (i + 1) cs

end

/-- Modelled from the spec: the canonical `idxorder` row order of the
coordinate table: tips 0..ntips-1 left to right, then internal nodes,
each after all of its children (spec section 3). -/
def idxorderPaths (t : PhyloNode) : List (List Nat) :=
  tipPaths t ++ internalPostPaths t

mutual

/-- Modelled from the spec: `node._height`, the height of a node above the
tips: 0 for a leaf, otherwise the maximal child height plus that child's
`dist` (the down-facing second coordinate of spec section 4.2 step 1). -/
noncomputable def heightOf : PhyloNode → ℝ
  | .mk _ _ _ _ [] => 0
  | .mk _ _ _ _ (c :: cs) => heightList (c :: cs)

/-- Maximum of `heightOf c + c.dist` over a list of sibling subtrees. -/
noncomputable def heightList : List PhyloNode → ℝ
  | [] => 0
  | c :: cs => max (heightOf c + c.dist) (heightList cs)

end

mutual

/-- The second coordinate assigned by `Layout._assign_unit_length_edges`
(layout.py lines 140-147): 0 for a leaf, otherwise the maximum over the
children plus 1. -/
noncomputable def unitY : PhyloNode → ℝ
  | .mk _ _ _ _ [] => 0
  | .mk _ _ _ _ (c :: cs) => unitYList (c :: cs) + 1

/-- Maximum of `unitY` over a list of sibling subtrees. -/
noncomputable def unitYList : List PhyloNode → ℝ
  | [] => 0
  | c :: cs => max (unitY c) (unitYList cs)

end

/-- `Layout._assign_unit_length_edges` (layout.py lines 140-147): when
`use_edge_lengths` is false, overwrite the second coordinate of every row
of the table (row i belongs to the node at `idxorderPaths` position i)
with its unit-edge value; first coordinates are kept. -/
noncomputable def assign_unit_length_edges (t : PhyloNode) (coords : List (ℝ × ℝ)) :
    List (ℝ × ℝ) :=
  List.zipWith
    (fun p xy =>
      match subtreeAt p t with
      | some s => (xy.1, unitY s)
      | none => xy)
    (idxorderPaths t) coords

/-- `np.mean` over a list of reals. -/
noncomputable def mean (xs : List ℝ) : ℝ :=
  xs.sum / (xs.length : ℝ)

mutual

/-- Modelled from the spec: the down-facing canonical first coordinate
(spec section 4.2 step 1): a tip's x is its position among the tips in
plotting order, an internal node's x is the mean of its children's. -/
noncomputable def xCoordAux (t : PhyloNode) : List Nat → PhyloNode → ℝ
  | p, .mk _ _ _ _ [] => ((tipPaths t).indexOf p : ℝ)
  | p, .mk _ _ _ _ (c :: cs) => mean (xCoordList t p 0 (c :: cs))

/-- Down-facing x coordinates of a list of sibling subtrees. -/
noncomputable def xCoordList (t : PhyloNode) : List Nat → Nat → List PhyloNode → List ℝ
  | _, _, [] => []
  | p, i, c :: cs => xCoordAux t (p ++ [i]) c :: xCoordList t p (i + 1) cs

end

/-- `tree._get_node_coordinates()`, modelled from the spec (section 4.2
step 1): the cached down-facing coordinate table in `idxorder` row order,
x as above and y the node height. -/
noncomputable def node_coordinates (t : PhyloNode) : List (ℝ × ℝ) :=
  (idxorderPaths t).map
    (fun p =>
      match subtreeAt p t with
      | some s => (xCoordAux t p s, heightOf s)
      | none => (0, 0))

/-- `Layout._update_coordinates` (layout.py lines 102-138): if
`use_edge_lengths` is false overwrite second coordinates with unit-edge
values; for the linear layouts r, l, u, d add the baselines and re-orient
("u" negates the second coordinate, "l" swaps the two coordinates, "r"
swaps and negates the new first coordinate, "d" is the identity); any
other layout raises `NotImplementedError("radial todo")`. -/
noncomputable def update_coordinates (t : PhyloNode) (style : TreeStyle)
    (coords : List (ℝ × ℝ)) : Except LayoutError (List (ℝ × ℝ)) :=
  let c0 := if style.use_edge_lengths then coords else assign_unit_length_edges t coords
  if style.layout ∈ ['r', 'l', 'u', 'd'] then
    let c1 := c0.map (fun xy => (xy.1 + style.xbaseline, xy.2 + style.ybaseline))
    if style.layout = 'u' then .ok (c1.map (fun xy => (xy.1, -xy.2)))
    else if style.layout = 'l' then .ok (c1.map (fun xy => (xy.2, xy.1)))
    else if style.layout = 'r' then .ok (c1.map (fun xy => (-xy.2, xy.1)))
    else .ok c1
  else .error .notImplemented

/-- The write loop of `Layout._get_fixed_order_and_position_coords`
(layout.py lines 173-177): for each position idx and name of the user
fixed_order list, raise `ToytreeError` if the name is not a tip name of
the tree, otherwise record idx at the slot of that tip. -/
def build_idxorder (tipnames : List String) : List Nat → Nat → List String →
    Except LayoutError (List Nat)
  | arr, _, [] => .ok arr
  | arr, idx, nm :: rest =>
      if nm ∈ tipnames then
        build_idxorder tipnames (arr.set (tipnames.indexOf nm) idx) (idx + 1) rest
      else .error (.unknownTip nm)

mutual

/-- The first coordinate computed by the idxorder traversal of
`Layout._get_fixed_order_and_position_coords` (layout.py lines 180-187):
a tip's x is `positions[idxorder[node.idx]]`, an internal node's x is the
mean of its children's. -/
noncomputable def fixedXAux (t : PhyloNode) (positions : List ℝ) (idxo : List Nat) :
    List Nat → PhyloNode → ℝ
  | p, .mk _ _ _ _ [] =>
      (positions[((idxo[(tipPaths t).indexOf p]?).getD 0)]?).getD 0
  | p, .mk _ _ _ _ (c :: cs) => mean (fixedXList t positions idxo p 0 (c :: cs))

/-- Fixed-order x coordinates of a list of sibling subtrees. -/
noncomputable def fixedXList (t : PhyloNode) (positions : List ℝ) (idxo : List Nat) :
    List Nat → Nat → List PhyloNode → List ℝ
  | _, _, [] => []
  | p, i, c :: cs =>
      fixedXAux t positions idxo (p ++ [i]) c :: fixedXList t positions idxo p (i + 1) cs

end

/-- `Layout._get_fixed_order_and_position_coords` (layout.py lines
149-188): build the tip positions (default 0..ntips-1, with an `assert` on
the length of a user `fixed_position`), build the idxorder permutation from
a user `fixed_order` (an `assert` on its length, then the name-checking
write loop), then return the coordinate table from an idxorder traversal. -/
noncomputable def get_fixed_order_and_position_coords (t : PhyloNode)
    (fixed_order : Option (List String)) (fixed_position : Option (List ℝ)) :
    Except LayoutError (List (ℝ × ℝ)) := do
  let positions : List ℝ ←
    match fixed_position with
    | none => .ok ((List.range (ntipsOf t)).map (fun i => (i : ℝ)))
    | some ps =>
        if ps.length = ntipsOf t then .ok ps else .error .assertionError
  let idxo : List Nat ←
    match fixed_order with
    | none => .ok (List.range (ntipsOf t))
    | some names =>
        if names.length = ntipsOf t then
          build_idxorder (leafNames t) (List.replicate (ntipsOf t) 0) 0 names
        else .error .assertionError
  .ok ((idxorderPaths t).map
    (fun p =>
      match subtreeAt p t with
      | some s => (fixedXAux t positions idxo p s, heightOf s)
      | none => (0, 0)))

/-- `Layout.run` followed by `Layout._update_coordinates` (layout.py lines
90-100): take the cached coordinates unless a fixed order or position was
given, then apply the style projection. -/
noncomputable def layout_full (t : PhyloNode) (style : TreeStyle)
    (fixed_order : Option (List String)) (fixed_position : Option (List ℝ)) :
    Except LayoutError (List (ℝ × ℝ)) := do
  let coords ←
    match fixed_order, fixed_position with
    | none, none => .ok (node_coordinates t)
    | fo, fp => get_fixed_order_and_position_coords t fo fp
  update_coordinates t style coords

/-! ## Equal-angle and equal-daylight algorithms (layout.py lines 191-281) -/

mutual

/-- The postorder `radian_sum` accumulation of `equal_angle_algorithm`
(layout.py lines 254-258): a leaf weighs `radians_per_tip` (the parameter
rpt), an internal node the sum of its children's weights. -/
def radianSumOf (rpt : ℝ) : PhyloNode → ℝ
  | .mk _ _ _ _ [] => rpt
  | .mk _ _ _ _ (c :: cs) => radianSumsOf rpt (c :: cs)

/-- Sum of `radianSumOf` over a list of sibling subtrees. -/
def radianSumsOf (rpt : ℝ) : List PhyloNode → ℝ
  | [] => 0
  | c :: cs => radianSumOf rpt c + radianSumsOf rpt cs

end

mutual

/-- The first traversal of `equal_angle_algorithm` (layout.py lines
252-258): write `node.radian_sum` onto every node of the input tree.  The
source visits nodes in postorder so each node's children already carry
their sums; structurally that value is `radianSumOf`. -/
def radianPass (rpt : ℝ) : PhyloNode → PhyloNode
  | .mk n d _ sec [] => .mk n d (some rpt) sec []
  | .mk n d _ sec (c :: cs) =>
      .mk n d (some (radianSumsOf rpt (c :: cs))) sec (radianPassList rpt (c :: cs))

/-- `radianPass` mapped over a list of sibling subtrees. -/
def radianPassList (rpt : ℝ) : List PhyloNode → List PhyloNode
  | [] => []
  | c :: cs => radianPass rpt c :: radianPassList rpt cs

end

mutual

/-- The second traversal of `equal_angle_algorithm` (layout.py lines
260-280): write `node.sector` onto every node.  The node itself receives
the sector `sec` handed down by its parent; its children are stacked
inside it without gaps in stored child order, the first child starting at
`sec.1` and each later child starting where its previous sibling ended
(the levelorder pass of the source, whose only data dependencies are the
parent's sector and the previous sibling's sector). -/
def sectorPass (rpt : ℝ) : PhyloNode → ℝ × ℝ → PhyloNode
  | .mk n d rs _ cs, sec => .mk n d rs (some sec) (sectorPassList rpt cs sec.1)

/-- Assign sectors to sibling subtrees starting at angle `start`: each
sibling spans its `radianSumOf` weight and the next begins where it
ends. -/
def sectorPassList (rpt : ℝ) : List PhyloNode → ℝ → List PhyloNode
  | [], _ => []
  | c :: cs, start =>
      sectorPass rpt c (start, start + radianSumOf rpt c) ::
        sectorPassList rpt cs (start + radianSumOf rpt c)

end

/-- `equal_angle_algorithm` acting on the input tree (layout.py lines
246-272): with `radians_per_tip = 2*pi / ntips`, run the postorder
`radian_sum` pass and then the sector pass with the root holding the full
sector from 0 to 2*pi.  The result is the same tree with the two dynamic
attributes written onto every node. -/
noncomputable def equal_angle_tree (t : PhyloNode) : PhyloNode :=
  sectorPass (2 * Real.pi / (ntipsOf t : ℝ)) (radianPass (2 * Real.pi / (ntipsOf t : ℝ)) t)
    (0, 2 * Real.pi)

/-- Read the `sector` attribute of the node at path `p` after
`equal_angle_algorithm` has run. -/
noncomputable def sectorAt (t : PhyloNode) (p : List Nat) : Option (ℝ × ℝ) :=
  (subtreeAt p (equal_angle_tree t)).bind (fun s => s.sector)

/-- The size (end minus start) of the sector at path `p`. -/
noncomputable def sectorSizeAt (t : PhyloNode) (p : List Nat) : Option ℝ :=
  (sectorAt t p).map (fun s => s.2 - s.1)

/-- The Cartesian placement of `equal_angle_algorithm` (layout.py lines
273-280) read along a path: a node is placed at its parent's position plus
a vector of length `dist` at the midpoint angle of its sector,
`x = parent.x + dist * sin(mid)`, `y = parent.y - dist * cos(mid)`; the
root sits at the origin. -/
noncomputable def posAt : List Nat → PhyloNode → ℝ × ℝ → Option (ℝ × ℝ)
  | [], _, pos => some pos
  | i :: p, t, pos =>
      match t.children[i]? with
      | some c =>
          match c.sector with
          | some sec =>
              posAt p c
                (pos.1 + c.dist * Real.sin ((sec.1 + sec.2) / 2),
                 pos.2 - c.dist * Real.cos ((sec.1 + sec.2) / 2))
          | none => none
      | none => none

/-- The equal-angle coordinates of the node at path `p`. -/
noncomputable def equal_angle_pos (t : PhyloNode) (p : List Nat) : Option (ℝ × ℝ) :=
  posAt p (equal_angle_tree t) (0, 0)

/-- The per-tip angle computed inside `equal_daylight_algorithm`
(layout.py lines 228-231): with `delta_x = pos[0] - npos[0]` and
`delta_y = pos[1] - npos[1]` the source evaluates
`np.arctan(delta_y / delta_x)` with no guard; a zero `delta_x` makes the
division a floating-point domain error, modelled as `none`. -/
noncomputable def arctan_ratio (pos npos : ℝ × ℝ) : Option ℝ :=
  if pos.1 - npos.1 = 0 then none
  else some (Real.arctan ((pos.2 - npos.2) / (pos.1 - npos.1)))

/-- The daylight angle `equal_daylight_algorithm` computes for the visited
internal node at path `np` and the subset tip at path `tp`, both placed by
the equal-angle starting layout (layout.py lines 201-231). -/
noncomputable def daylight_angle (t : PhyloNode) (np tp : List Nat) : Option ℝ :=
  match equal_angle_pos t np, equal_angle_pos t tp with
  | some pos, some npos => arctan_ratio pos npos
  | _, _ => none

mutual

/-- Erase the two dynamic attributes everywhere (used to express that the
equal-angle pass changes nothing but those attributes). -/
def stripAttrs : PhyloNode → PhyloNode
  | .mk n d _ _ cs => .mk n d none none (stripAttrsList cs)

/-- `stripAttrs` mapped over a list of sibling subtrees. -/
def stripAttrsList : List PhyloNode → List PhyloNode
  | [] => []
  | c :: cs => stripAttrs c :: stripAttrsList cs

end

/-! ## Style kwargs processing (`Layout.get_style`, layout.py lines 47-88) -/

/-- A dynamically typed style value (number, string or boolean), spec
section 9 (tagged value variants). -/
inductive StyleVal : Type where
  | num (q : ℚ)
  | str (s : String)
  | boolean (b : Bool)
  deriving DecidableEq

/-- Modelled from the spec: an attribute slot of a TreeStyle object; a
slot is either a standard style argument or a SubStyle holding its own
named entries (the tree_style module is not among the provided sources). -/
inductive StyleAttr : Type where
  | plain (v : StyleVal)
  | substyle (entries : List (String × StyleVal))
  deriving DecidableEq

/-- Modelled from the spec: a TreeStyle object as a mapping from attribute
names to slots; `getattr` is lookup and an absent name raises
`AttributeError`. -/
abbrev StyleObj := List (String × StyleAttr)

/-- A user keyword argument value: Python `None` (skipped by the loop), a
plain value, or a dict destined for a SubStyle. -/
inductive KwargVal : Type where
  | noneV
  | plain (v : StyleVal)
  | sub (entries : List (String × StyleVal))
  deriving DecidableEq

/-- Errors escaping `Layout.get_style`: `getattr` on an unrecognized
top-level key raises `AttributeError`; iterating a non-dict value for a
SubStyle raises `TypeError`. -/
inductive AttrErr : Type where
  | attributeError
  | typeError
  deriving DecidableEq

/-- `getattr(self.style, key)` on the modelled style object. -/
def lookupAttr (st : StyleObj) (k : String) : Option StyleAttr :=
  (st.find? (fun kv => kv.1 = k)).map (fun kv => kv.2)

/-- `setattr(self.style, key, value)` on the modelled style object. -/
def setAttr (st : StyleObj) (k : String) (v : StyleAttr) : StyleObj :=
  st.map (fun kv => if kv.1 = k then (k, v) else kv)

/-- Convert a (non-None) kwarg value into an attribute slot. -/
def kwargToAttr : KwargVal → StyleAttr
  | .noneV => .plain (.boolean false)
  | .plain v => .plain v
  | .sub e => .substyle e

/-- The SubStyle update loop of `Layout.get_style` (layout.py lines
80-88): replace dashes with underscores in each sub key; if the SubStyle
has the attribute set it, otherwise skip it and log a warning
("Unrecognized substyle drawing arg skipped").  Returns the updated
entries and the accumulated warning log. -/
def update_substyle : List (String × StyleVal) → List (String × StyleVal) →
    List String → List (String × StyleVal) × List String
  | [], sub, warns => (sub, warns)
  | (k, v) :: rest, sub, warns =>
      let k2 := k.replace "-" "_"
      if (sub.find? (fun kv => kv.1 = k2)).isSome then
        update_substyle rest (sub.map (fun kv => if kv.1 = k2 then (k2, v) else kv)) warns
      else
        update_substyle rest sub (warns ++ [k2])

/-- `Layout.get_style` user-kwarg loop (layout.py lines 65-88): skip
values left at None; `getattr` the key (raising `AttributeError` when the
style has no such attribute); set a standard argument directly; for a
SubStyle walk the entered dict with the warn-and-skip policy.  Returns the
updated style and the warning log. -/
def get_style : StyleObj → List (String × KwargVal) → List String →
    Except AttrErr (StyleObj × List String)
  | st, [], warns => .ok (st, warns)
  | st, (k, v) :: rest, warns =>
      match v with
      | .noneV => get_style st rest warns
      | _ =>
          match lookupAttr st k with
          | none => .error .attributeError
          | some (.plain _) => get_style (setAttr st k (kwargToAttr v)) rest warns
          | some (.substyle sub) =>
              match v with
              | .sub entries =>
                  let r := update_substyle entries sub warns
                  get_style (setAttr st k (.substyle r.1)) rest r.2
              | _ => .error .typeError

/-! ## Consensus engine (src/toytree/src/multitree.py; the ConsensusTree
class lives in toytree.src.consensus which is not among the provided
sources, so its algorithm is modelled from the spec, section 4.3) -/

/-- Consensus failure modes (spec sections 4.3 and 7). -/
inductive ConsError : Type where
  | emptyInput
  | invalidArgument
  | tipSetMismatch
  deriving DecidableEq

/-- `MultiTree.all_tips_shared` (multitree.py lines 148-159): whether
every tree in the list has the same tip-name set as the first. -/
def all_tips_shared (trees : List PhyloNode) : Bool :=
  match trees with
  | [] => true
  | t0 :: _ => trees.all (fun t => decide (leafSetOf t = leafSetOf t0))

/-- Modelled from the spec: per-clade frequency, the fraction of input
trees containing that exact clade (spec section 4.3 steps 2-3). -/
def freq (trees : List PhyloNode) (c : Clade) : ℚ :=
  ((trees.countP (fun t => decide (c ∈ cladesOf t))) : ℚ) / (trees.length : ℚ)

/-- Modelled from the spec: two clades are compatible when they are nested
or disjoint, never partially overlapping (spec section 4.3 step 4). -/
def compatClades (c d : Clade) : Bool :=
  decide (c ⊆ d) || decide (d ⊆ c) || decide (c ∩ d = ∅)

/-- Lexicographic comparison of name lists (the deterministic canonical
tie break of spec section 4.3 step 4). -/
def strListLE : List String → List String → Bool
  | [], _ => true
  | _ :: _, [] => false
  | a :: as, b :: bs => if a < b then true else if b < a then false else strListLE as bs

/-- Modelled from the spec: the candidate ordering of spec section 4.3
step 4; decreasing frequency, ties broken by clade size (largest first),
then by the sorted member names. -/
def cladeBefore (trees : List PhyloNode) (c d : Clade) : Bool :=
  if freq trees d < freq trees c then true
  else if freq trees c < freq trees d then false
  else if d.card < c.card then true
  else if c.card < d.card then false
  else strListLE (c.sort (· ≤ ·)) (d.sort (· ≤ ·))

/-- Modelled from the spec: the distinct clades occurring in the input
collection (spec section 4.3 steps 2-3). -/
def candidate_clades (trees : List PhyloNode) : List Clade :=
  ((trees.map cladesOf).flatten).dedup

/-- Modelled from the spec: the candidates in decreasing frequency order
with the deterministic tie break. -/
def sorted_candidates (trees : List PhyloNode) : List Clade :=
  List.insertionSort (fun c d => cladeBefore trees c d = true) (candidate_clades trees)

/-- Modelled from the spec: the greedy acceptance loop of spec section 4.3
step 4; a candidate joins the growing topology only if it is compatible
with every previously accepted clade and its frequency reaches the
cutoff (clades below the cutoff are rejected, collapsing them). -/
def greedy_accept (cutoff : ℚ) (fr : Clade → ℚ) : List Clade → List Clade → List Clade
  | acc, [] => acc
  | acc, c :: rest =>
      if acc.all (fun d => compatClades c d) && decide (cutoff ≤ fr c) then
        greedy_accept cutoff fr (acc ++ [c]) rest
      else
        greedy_accept cutoff fr acc rest

/-- Modelled from the spec: the accepted (resolved) clades of the
majority-rule consensus topology. -/
def accepted_clades (trees : List PhyloNode) (cutoff : ℚ) : List Clade :=
  greedy_accept cutoff (freq trees) [] (sorted_candidates trees)

/-- Modelled from the spec: the tips placed as direct children of the node
built for accepted clade `c`: the members of `c` lying in no accepted
clade strictly inside `c` (rejected clades leave their tips attached
directly here, spec section 4.3 step 4). -/
def direct_tips (accepted : List Clade) (c : Clade) : Finset String :=
  c.filter (fun x => ¬ ∃ d ∈ accepted, d ⊂ c ∧ x ∈ d)

/-- Modelled from the spec: the accepted clades that become direct child
nodes of the node built for `c` (the maximal accepted clades strictly
inside `c`). -/
def child_clades (accepted : List Clade) (c : Clade) : List Clade :=
  accepted.filter (fun d => d ⊂ c ∧ ¬ ∃ e ∈ accepted, d ⊂ e ∧ e ⊂ c)

/-- The first clade of minimal cardinality in a list. -/
def min_by_card : List Clade → Option Clade
  | [] => none
  | c :: cs =>
      match min_by_card cs with
      | none => some c
      | some d => if c.card ≤ d.card then some c else some d

/-- Modelled from the spec: the nearest accepted ancestor of tip `x`, the
smallest accepted clade containing `x` (the accepted clades containing a
given tip form a chain, so the minimal-cardinality one is the nearest). -/
def nearest_accepted (accepted : List Clade) (x : String) : Option Clade :=
  min_by_card (accepted.filter (fun c => decide (x ∈ c)))

/-- `MultiTree.get_consensus_tree` (multitree.py lines 220-245) together
with the consensus computation of `ConsensusTree.update`.  Modelled from
the spec: the ConsensusTree class (toytree.src.consensus) is not among the
provided sources; per spec section 4.3 the engine validates the input
(empty collection, cutoff range, identical tip sets, failing with
`EmptyInputError`, `InvalidArgumentError` and `TipSetMismatchError`) and
then builds the extended majority-rule topology, returned here as its list
of resolved (accepted) clades. -/
def get_consensus_tree (trees : List PhyloNode) (cutoff : ℚ) :
    Except ConsError (List Clade) :=
  if trees.isEmpty then .error .emptyInput
  else if ¬ (0 ≤ cutoff ∧ cutoff ≤ 1) then .error .invalidArgument
  else if ¬ all_tips_shared trees then .error .tipSetMismatch
  else .ok (accepted_clades trees cutoff)

/-! ## MultiTree iteration (multitree.py lines 116-136) -/

/-- `MultiTree` (multitree.py lines 116-121): the tree list and the
iterator position `_i`, initialised to 0. -/
structure MultiTree : Type where
  treelist : List PhyloNode
  iterPos : Nat

/-- `MultiTree.__next__` (multitree.py lines 129-136): look up
`treelist[_i]`; on IndexError reset `_i` to 0 and raise StopIteration
(modelled as `none`); otherwise advance `_i` and return the tree. -/
def MultiTree.next (m : MultiTree) : Option PhyloNode × MultiTree :=
  match m.treelist[m.iterPos]? with
  | none => (none, { m with iterPos := 0 })
  | some t => (some t, { m with iterPos := m.iterPos + 1 })

/-- Drive the iterator (`__iter__` returns the object itself): call
`next` until StopIteration (or the fuel runs out), collecting the yielded
trees and returning the final iterator state. -/
def MultiTree.drive (m : MultiTree) : Nat → List PhyloNode × MultiTree
  | 0 => ([], m)
  | fuel + 1 =>
      match m.next with
      | (none, m2) => ([], m2)
      | (some t, m2) =>
          let r := m2.drive fuel
          (t :: r.1, r.2)

/-! ## Concrete input trees used by the witnesses and counterexamples -/

/-- A tip node with branch length 1. -/
def leafN (n : String) : PhyloNode :=
  .mk n 1 none none []

/-- The 3-tip star tree (A,B,C); with root branch length 0. -/
def tree3 : PhyloNode :=
  .mk "root" 0 none none [leafN "A", leafN "B", leafN "C"]

/-- The balanced 4-tip tree ((A,B),(C,D)); -/
def tree4 : PhyloNode :=
  .mk "root" 0 none none
    [.mk "X" 1 none none [leafN "A", leafN "B"],
     .mk "Y" 1 none none [leafN "C", leafN "D"]]

/-- The tree ((A:0,B:1):1,C:1); whose tip A sits at zero distance from its
parent, giving a zero-length directional vector in the daylight loop. -/
def tree9 : PhyloNode :=
  .mk "root" 0 none none
    [.mk "X" 1 none none [.mk "A" 0 none none [], leafN "B"], leafN "C"]

/-- The tree (((A,B),C),D); of the spec's consensus examples. -/
def treeABCD : PhyloNode :=
  .mk "root" 0 none none
    [.mk "n1" 1 none none
      [.mk "n2" 1 none none [leafN "A", leafN "B"], leafN "C"], leafN "D"]

/-- The tree ((A,(B,C)),D); of the spec's consensus examples. -/
def treeABCD2 : PhyloNode :=
  .mk "root" 0 none none
    [.mk "n1" 1 none none
      [leafN "A", .mk "n2" 1 none none [leafN "B", leafN "C"]], leafN "D"]

/-- A 3-tip tree on tips A, B, D (differing tip set from `tree3`). -/
def tree3D : PhyloNode :=
  .mk "root" 0 none none [leafN "A", leafN "B", leafN "D"]

/-- A baseline style object holding the recognized top-level options and
one SubStyle (spec section 6). -/
def default_style : StyleObj :=
  [("layout", .plain (.str "d")),
   ("use_edge_lengths", .plain (.boolean true)),
   ("xbaseline", .plain (.num 0)),
   ("ybaseline", .plain (.num 0)),
   ("tip_labels_style", .substyle
      [("font_size", .str "9px"), ("_toyplot_anchor_shift", .str "10px")])]

/-- The start angle of the sector assigned to the node at path `p` when
its subtree root holds a sector starting at `a`: descending into child i
adds the weights of the earlier siblings (they are stacked without gaps in
stored order). -/
def sectorStartR (rpt : ℝ) : List Nat → PhyloNode → ℝ → ℝ
  | [], _, a => a
  | i :: p, t, a =>
      match t.children[i]? with
      | some c => sectorStartR rpt p c (a + radianSumsOf rpt (t.children.take i))
      | none => 0

/-- The sector the sector pass hands to the node at path `p` inside a tree
whose root was given the sector `(a, b)`. -/
def sectorFor (rpt : ℝ) (p : List Nat) (t : PhyloNode) (a b : ℝ) (c : PhyloNode) : ℝ × ℝ :=
  if p = [] then (a, b)
  else (sectorStartR rpt p t a, sectorStartR rpt p t a + radianSumOf rpt c)

/-- `radians_per_tip = 2 * np.pi / ntips` (layout.py line 250). -/
noncomputable def rptOf (t : PhyloNode) : ℝ :=
  2 * Real.pi / (ntipsOf t : ℝ)

/-! ## Theorems -/

theorem multitree_drive_aux (l : List PhyloNode) :
    ∀ (k i : Nat), l.length - i = k → i ≤ l.length →
      MultiTree.drive ⟨l, i⟩ (k + 1) = (l.drop i, ⟨l, 0⟩) := by
  intro k
  induction k with
  | zero =>
      intro i hk hle
      have hi : i = l.length := by omega
      subst hi
      simp [MultiTree.drive, MultiTree.next, List.getElem?_eq_none (Nat.le_refl _),
        List.drop_length]
  | succ k ih =>
      intro i hk hle
      have hi : i < l.length := by omega
      have hget : l[i]? = some l[i] := List.getElem?_eq_getElem hi
      have hdrop : l.drop i = l[i] :: l.drop (i + 1) :=
        List.drop_eq_getElem_cons hi
      have ihh := ih (i + 1) (by omega) (by omega)
      rw [MultiTree.drive]
      simp only [MultiTree.next, hget]
      rw [ihh, hdrop]

/-- C10: iterating a MultiTree yields the trees of its treelist in list
order; on exhaustion `__next__` raises StopIteration and resets the
internal position to 0, so a second full iteration over the same object
again yields the whole sequence from the first tree. -/
theorem multitree_iteration_thm (l : List PhyloNode) :
    MultiTree.drive ⟨l, 0⟩ (l.length + 1) = (l, ⟨l, 0⟩) ∧
    MultiTree.next ⟨l, l.length⟩ = (none, ⟨l, 0⟩) ∧
    MultiTree.drive (MultiTree.drive ⟨l, 0⟩ (l.length + 1)).2 (l.length + 1) =
      (l, ⟨l, 0⟩) := by
  have h := multitree_drive_aux l (l.length) 0 (by omega) (by omega)
  simp only [List.drop_zero] at h
  refine ⟨h, ?_, ?_⟩
  · simp [MultiTree.next, List.getElem?_eq_none (Nat.le_refl _)]
  · rw [h]
    exact h

/-- C2: evaluating the layout engine at the failing input: a layout
request with the unrooted-radial orientation selector does not produce a
coordinate table; `Layout._update_coordinates` raises
`NotImplementedError("radial todo")` (layout.py line 138), although the
class docstring lists the radial selectors among the accepted layout
style args.  The four linear selectors succeed on the same tree. -/
theorem radial_layout_not_implemented :
    layout_full tree3 ⟨'c', true, 0, 0⟩ none none = .error .notImplemented ∧
    layout_full tree3 ⟨'*', true, 0, 0⟩ none none = .error .notImplemented ∧
    (layout_full tree3 ⟨'d', true, 0, 0⟩ none none).isOk = true ∧
    (layout_full tree3 ⟨'u', true, 0, 0⟩ none none).isOk = true ∧
    (layout_full tree3 ⟨'l', true, 0, 0⟩ none none).isOk = true ∧
    (layout_full tree3 ⟨'r', true, 0, 0⟩ none none).isOk = true := by
  refine ⟨rfl, rfl, rfl, rfl, rfl, rfl⟩

/-- C3: for every tree and fixed style parameters the orientation
transform of `Layout._update_coordinates` is a pure coordinate
permutation/negation of the down-facing layout: "u" equals the "d" result
with the second coordinate negated element-wise, "l" equals "d" with the
two coordinates swapped, and "r" equals "d" with the coordinates swapped
and the new first coordinate negated. -/
theorem orientation_transform_thm (t : PhyloNode) (ue : Bool) (xb yb : ℝ) :
    layout_full t ⟨'u', ue, xb, yb⟩ none none =
      (fun cs => cs.map (fun xy => (xy.1, -xy.2))) <$>
        layout_full t ⟨'d', ue, xb, yb⟩ none none ∧
    layout_full t ⟨'l', ue, xb, yb⟩ none none =
      (fun cs => cs.map (fun xy => (xy.2, xy.1))) <$>
        layout_full t ⟨'d', ue, xb, yb⟩ none none ∧
    layout_full t ⟨'r', ue, xb, yb⟩ none none =
      (fun cs => cs.map (fun xy => (-xy.2, xy.1))) <$>
        layout_full t ⟨'d', ue, xb, yb⟩ none none := by
  refine ⟨rfl, rfl, rfl⟩

theorem build_idxorder_error (tipnames : List String) :
    ∀ (names : List String) (arr : List Nat) (idx : Nat),
      (∃ nm ∈ names, nm ∉ tipnames) →
      ∃ m, m ∉ tipnames ∧
        build_idxorder tipnames arr idx names = .error (.unknownTip m) := by
  intro names
  induction names with
  | nil => intro arr idx h; simp at h
  | cons nm rest ih =>
      intro arr idx h
      by_cases hnm : nm ∈ tipnames
      · obtain ⟨x, hx, hxt⟩ := h
        have hxr : x ∈ rest := by
          rcases List.mem_cons.mp hx with h1 | h1
          · exact absurd (h1 ▸ hnm) hxt
          · exact h1
        obtain ⟨m, hm1, hm2⟩ :=
          ih (arr.set (tipnames.indexOf nm) idx) (idx + 1) ⟨x, hxr, hxt⟩
        exact ⟨m, hm1, by simpa [build_idxorder, hnm] using hm2⟩
      · exact ⟨nm, hnm, by simp [build_idxorder, hnm]⟩

/-- C7: a layout request whose fixed_order list (of the right length, so
the length assert passes first) contains a name not present among the
tree's tip names fails with the unknown-tip `ToytreeError` of layout.py
line 176, and no coordinate table is produced. -/
theorem fixed_order_unknown_tip_thm (t : PhyloNode) (style : TreeStyle)
    (names : List String)
    (hlen : names.length = ntipsOf t)
    (hbad : ∃ nm ∈ names, nm ∉ leafNames t) :
    ∃ m, m ∉ leafNames t ∧
      get_fixed_order_and_position_coords t (some names) none =
        .error (.unknownTip m) ∧
      layout_full t style (some names) none = .error (.unknownTip m) := by
  obtain ⟨m, hm1, hm2⟩ :=
    build_idxorder_error (leafNames t) names
      (List.replicate (ntipsOf t) 0) 0 hbad
  refine ⟨m, hm1, ?_, ?_⟩
  · simp [get_fixed_order_and_position_coords, hlen, hm2, Bind.bind, Except.bind]
  · simp [layout_full, get_fixed_order_and_position_coords, hlen, hm2,
      Bind.bind, Except.bind]

/-- Witness for the C7 theorem at the concrete input of the spec example:
tree3 has tips A, B, C and the fixed order list names the absent tip D. -/
theorem fixed_order_unknown_tip_witness :
    (["A", "B", "D"].length = ntipsOf tree3) ∧
    (∃ nm ∈ ["A", "B", "D"], nm ∉ leafNames tree3) ∧
    ∃ m, m ∉ leafNames tree3 ∧
      get_fixed_order_and_position_coords tree3 (some ["A", "B", "D"]) none =
        .error (.unknownTip m) ∧
      layout_full tree3 ⟨'d', true, 0, 0⟩ (some ["A", "B", "D"]) none =
        .error (.unknownTip m) :=
  ⟨by decide, by decide,
    fixed_order_unknown_tip_thm tree3 ⟨'d', true, 0, 0⟩ ["A", "B", "D"]
      (by decide) (by decide)⟩

/-- C8 counterexample: the claim that every unrecognized configuration
option is ignored with a logged warning and the call still succeeds is
false at a concrete input: a single unrecognized top-level style key makes
`Layout.get_style` fail hard, because `getattr(self.style, key)`
(layout.py line 73) raises `AttributeError` before any warn-and-skip logic
is reached. -/
theorem get_style_top_level_unknown_cex :
    get_style default_style [("bogus_option", .plain (.num 1))] [] =
      .error .attributeError := rfl

theorem update_substyle_warns_mono :
    ∀ (entries sub : List (String × StyleVal)) (warns : List String) (x : String),
      x ∈ warns → x ∈ (update_substyle entries sub warns).2 := by
  intro entries
  induction entries with
  | nil => intro sub warns x hx; simpa [update_substyle] using hx
  | cons e rest ih =>
      intro sub warns x hx
      by_cases hf : ((sub.find? (fun kv => kv.1 = e.1.replace "-" "_")).isSome : Bool)
      · simpa [update_substyle, hf] using
          ih _ warns x hx
      · simp only [update_substyle, hf]
        exact ih _ (warns ++ [e.1.replace "-" "_"]) x (by simp [hx])

theorem find_isSome_set_preserve (k2 : String) (v : StyleVal)
    (sub : List (String × StyleVal)) (x : String) :
    (((sub.map (fun kv => if kv.1 = k2 then (k2, v) else kv)).find?
        (fun kv => kv.1 = x)).isSome) =
      ((sub.find? (fun kv => kv.1 = x)).isSome) := by
  induction sub with
  | nil => rfl
  | cons kv rest ih =>
      simp only [List.map_cons]
      by_cases hx : kv.1 = x
      · by_cases h : kv.1 = k2
        · rw [if_pos h, List.find?_cons_of_pos _ (by simp [h ▸ hx]),
            List.find?_cons_of_pos _ (by simp [hx])]
          rfl
        · rw [if_neg h, List.find?_cons_of_pos _ (by simp [hx]),
            List.find?_cons_of_pos _ (by simp [hx])]
      · by_cases h : kv.1 = k2
        · have hkx : ¬ (k2 = x) := fun he => hx (h.trans he)
          rw [if_pos h, List.find?_cons_of_neg _ (by simp [hkx]),
            List.find?_cons_of_neg _ (by simp [hx])]
          exact ih
        · rw [if_neg h, List.find?_cons_of_neg _ (by simp [hx]),
            List.find?_cons_of_neg _ (by simp [hx])]
          exact ih

theorem update_substyle_warns_unrecognized :
    ∀ (entries sub : List (String × StyleVal)) (warns : List String)
      (k : String) (v : StyleVal), (k, v) ∈ entries →
      (sub.find? (fun kv => kv.1 = k.replace "-" "_")).isSome = false →
      k.replace "-" "_" ∈ (update_substyle entries sub warns).2 := by
  intro entries
  induction entries with
  | nil => intro sub warns k v hk; simp at hk
  | cons e rest ih =>
      intro sub warns k v hk hmiss
      rcases List.mem_cons.mp hk with he | he
      · subst he
        simp only [update_substyle, hmiss, Bool.false_eq_true, if_false]
        exact update_substyle_warns_mono rest _ _ _ (by simp)
      · by_cases hf : ((sub.find? (fun kv => kv.1 = e.1.replace "-" "_")).isSome : Bool)
        · simp only [update_substyle, hf, if_true]
          refine ih _ warns k v he ?_
          rw [find_isSome_set_preserve]
          exact hmiss
        · simp only [update_substyle, hf, Bool.false_eq_true, if_false]
          exact ih _ _ k v he hmiss

/-- C8 amended: unrecognized configuration keys are ignored with a logged
warning only at the sub-style level: a kwarg updating a SubStyle dict
succeeds, every unrecognized sub key (after dash normalization) being
skipped and recorded in the warning log; an unrecognized top-level style
key instead raises `AttributeError` (a hard failure), since
`Layout.get_style` calls `getattr` on it unguarded. -/
theorem get_style_unknown_key_policy_thm (st : StyleObj) (k : String)
    (sub entries : List (String × StyleVal))
    (hk : lookupAttr st k = some (.substyle sub)) :
    (∃ st2 ws, get_style st [(k, .sub entries)] [] = .ok (st2, ws) ∧
      ∀ sk v, (sk, v) ∈ entries →
        (sub.find? (fun kv => kv.1 = sk.replace "-" "_")).isSome = false →
        sk.replace "-" "_" ∈ ws) ∧
    (∀ k2 v2, lookupAttr st k2 = none →
      get_style st [(k2, .plain v2)] [] = .error .attributeError) := by
  constructor
  · refine ⟨setAttr st k (.substyle (update_substyle entries sub []).1),
      (update_substyle entries sub []).2, ?_, ?_⟩
    · simp [get_style, hk]
    · intro sk v hmem hmiss
      exact update_substyle_warns_unrecognized entries sub [] sk v hmem hmiss
  · intro k2 v2 hnone
    simp [get_style, hnone]

/-- Witness for the C8 amended theorem at a concrete input: the default
style's `tip_labels_style` SubStyle receives one recognized and one
unrecognized entry; the call succeeds and the normalized unrecognized key
is in the warning log, while a bogus top-level key errors. -/
theorem get_style_unknown_key_policy_witness :
    (lookupAttr default_style "tip_labels_style" =
      some (.substyle
        [("font_size", .str "9px"), ("_toyplot_anchor_shift", .str "10px")])) ∧
    ((∃ st2 ws,
        get_style default_style
          [("tip_labels_style",
            .sub [("font-weight", .str "bold"), ("font_size", .str "11px")])] [] =
          .ok (st2, ws) ∧
        ∀ sk v,
          (sk, v) ∈ [("font-weight", StyleVal.str "bold"), ("font_size", StyleVal.str "11px")] →
          ([("font_size", StyleVal.str "9px"),
            ("_toyplot_anchor_shift", StyleVal.str "10px")].find?
              (fun kv => kv.1 = sk.replace "-" "_")).isSome = false →
          sk.replace "-" "_" ∈ ws) ∧
      (∀ k2 v2, lookupAttr default_style k2 = none →
        get_style default_style [(k2, .plain v2)] [] = .error .attributeError)) :=
  ⟨by decide,
    get_style_unknown_key_policy_thm default_style "tip_labels_style"
      [("font_size", .str "9px"), ("_toyplot_anchor_shift", .str "10px")]
      [("font-weight", .str "bold"), ("font_size", .str "11px")]
      (by decide)⟩

mutual

theorem stripAttrs_sectorPass (rpt : ℝ) :
    ∀ (t : PhyloNode) (sec : ℝ × ℝ),
      stripAttrs (sectorPass rpt t sec) = stripAttrs t
  | .mk n d rs so cs, sec => by
      simp only [sectorPass, stripAttrs]
      rw [stripAttrs_sectorPassList rpt cs sec.1]

theorem stripAttrs_sectorPassList (rpt : ℝ) :
    ∀ (cs : List PhyloNode) (start : ℝ),
      stripAttrsList (sectorPassList rpt cs start) = stripAttrsList cs
  | [], _ => rfl
  | c :: cs, start => by
      simp only [sectorPassList, stripAttrsList]
      rw [stripAttrs_sectorPass rpt c _, stripAttrs_sectorPassList rpt cs _]

end

mutual

theorem stripAttrs_radianPass (rpt : ℝ) :
    ∀ (t : PhyloNode), stripAttrs (radianPass rpt t) = stripAttrs t
  | .mk n d rs so [] => rfl
  | .mk n d rs so (c :: cs) => by
      simp only [radianPass, stripAttrs]
      rw [stripAttrs_radianPassList rpt (c :: cs)]

theorem stripAttrs_radianPassList (rpt : ℝ) :
    ∀ (cs : List PhyloNode),
      stripAttrsList (radianPassList rpt cs) = stripAttrsList cs
  | [] => rfl
  | c :: cs => by
      simp only [radianPassList, stripAttrsList]
      rw [stripAttrs_radianPass rpt c, stripAttrs_radianPassList rpt cs]

end

theorem sector_of_sectorPass (rpt : ℝ) (t : PhyloNode) (sec : ℝ × ℝ) :
    (sectorPass rpt t sec).sector = some sec := by
  cases t with
  | mk n d rs so cs => rfl

theorem radian_sum_of_radianPass_isSome (rpt : ℝ) (t : PhyloNode) :
    ((radianPass rpt t).radian_sum).isSome = true := by
  cases t with
  | mk n d rs so cs => cases cs <;> rfl

theorem radian_sum_of_sectorPass (rpt : ℝ) (t : PhyloNode) (sec : ℝ × ℝ) :
    (sectorPass rpt t sec).radian_sum = t.radian_sum := by
  cases t with
  | mk n d rs so cs => rfl

/-- C1 counterexample: the unrooted equal-angle layout engine call does
not leave the input tree unchanged: on the 3-tip tree it returns a tree
whose nodes carry the freshly written `radian_sum` attribute, so the
result differs from the input. -/
theorem equal_angle_mutates_cex : equal_angle_tree tree3 ≠ tree3 := by
  intro h
  have h2 := congrArg (fun s => (PhyloNode.radian_sum s).isSome) h
  simp only [equal_angle_tree] at h2
  rw [radian_sum_of_sectorPass, radian_sum_of_radianPass_isSome] at h2
  rw [show tree3.radian_sum = none from rfl] at h2
  simp at h2

/-- C1 amended: a linear-layout engine call only produces a new coordinate
table (the embedded `layout_full` is a pure function of the tree), but the
equal-angle radial algorithm mutates the input tree: it writes the
`radian_sum` and `sector` node attributes (the root receiving the full
sector from 0 to 2*pi) while leaving the names, dists and topology
unchanged. -/
theorem equal_angle_mutation_amended_thm (t : PhyloNode) :
    stripAttrs (equal_angle_tree t) = stripAttrs t ∧
    (equal_angle_tree t).sector = some (0, 2 * Real.pi) ∧
    ((equal_angle_tree t).radian_sum).isSome = true := by
  refine ⟨?_, ?_, ?_⟩
  · rw [equal_angle_tree, stripAttrs_sectorPass, stripAttrs_radianPass]
  · rw [equal_angle_tree, sector_of_sectorPass]
  · rw [equal_angle_tree, radian_sum_of_sectorPass, radian_sum_of_radianPass_isSome]

/-- C6: the consensus engine validates that every input tree has the
identical tip-name set and fails with the tip-set disagreement error
whenever the sets differ, producing no consensus result (spec section 4.3
step 1; the ConsensusTree class itself is modelled from the spec). -/
theorem consensus_tip_set_mismatch_thm (trees : List PhyloNode) (cutoff : ℚ)
    (hne : trees.isEmpty = false)
    (hc0 : 0 ≤ cutoff) (hc1 : cutoff ≤ 1)
    (hmis : all_tips_shared trees = false) :
    get_consensus_tree trees cutoff = .error .tipSetMismatch := by
  simp [get_consensus_tree, hne, hc0, hc1, hmis]

/-- Witness for the C6 theorem at the concrete input of the spec example:
two trees with tip sets A,B,C and A,B,D. -/
theorem consensus_tip_set_mismatch_witness :
    (([tree3, tree3D] : List PhyloNode).isEmpty = false) ∧
    ((0 : ℚ) ≤ 1 / 2) ∧ ((1 : ℚ) / 2 ≤ 1) ∧
    (all_tips_shared [tree3, tree3D] = false) ∧
    get_consensus_tree [tree3, tree3D] (1 / 2) = .error .tipSetMismatch :=
  ⟨by decide, by norm_num, by norm_num, by decide,
    consensus_tip_set_mismatch_thm [tree3, tree3D] (1 / 2) (by decide)
      (by norm_num) (by norm_num) (by decide)⟩

/-- C9: evaluating the embedded equal-daylight angle computation at the
failing input: on the tree ((A:0,B:1):1,C:1); the internal node at path
[0] and its zero-length child tip A at path [0,0] occupy the same
equal-angle position, so `delta_x = pos[0] - npos[0]` is zero and the
unguarded `np.arctan(delta_y / delta_x)` of layout.py lines 229-231 hits a
floating-point division-by-zero domain error (modelled as `none`) instead
of being treated as a zero contribution; no guard exists in the code. -/
theorem equal_daylight_zero_length_division_thm :
    daylight_angle tree9 [0] [0, 0] = none := by
  simp only [daylight_angle, equal_angle_pos, equal_angle_tree, tree9, leafN,
    radianPass, radianPassList, radianSumOf, radianSumsOf,
    sectorPass, sectorPassList, posAt,
    PhyloNode.children, PhyloNode.sector, PhyloNode.dist,
    List.getElem?_cons_zero]
  rw [arctan_ratio, if_pos (by ring)]

mutual

theorem ntipsOf_pos : ∀ (t : PhyloNode), 1 ≤ ntipsOf t
  | .mk _ _ _ _ [] => le_refl 1
  | .mk _ _ _ _ (c :: cs) => by
      have h := ntipsList_pos (c :: cs) (by simp)
      simpa [ntipsOf] using h

theorem ntipsList_pos : ∀ (cs : List PhyloNode), cs ≠ [] → 1 ≤ ntipsList cs
  | [], h => absurd rfl h
  | c :: cs, _ => by
      have h := ntipsOf_pos c
      simp only [ntipsList]
      omega

end

mutual

theorem radianSumOf_eq (rpt : ℝ) : ∀ (t : PhyloNode),
    radianSumOf rpt t = (ntipsOf t : ℝ) * rpt
  | .mk _ _ _ _ [] => by simp [radianSumOf, ntipsOf]
  | .mk _ _ _ _ (c :: cs) => by
      have h := radianSumsOf_eq rpt (c :: cs)
      simpa [radianSumOf, ntipsOf] using h

theorem radianSumsOf_eq (rpt : ℝ) : ∀ (cs : List PhyloNode),
    radianSumsOf rpt cs = (ntipsList cs : ℝ) * rpt
  | [] => by simp [radianSumsOf, ntipsList]
  | c :: cs => by
      have h1 := radianSumOf_eq rpt c
      have h2 := radianSumsOf_eq rpt cs
      simp only [radianSumsOf, ntipsList, h1, h2]
      push_cast
      ring

end

theorem radianPassList_eq_map (rpt : ℝ) : ∀ (cs : List PhyloNode),
    radianPassList rpt cs = cs.map (radianPass rpt)
  | [] => rfl
  | c :: cs => by
      simp only [radianPassList, List.map_cons]
      rw [radianPassList_eq_map rpt cs]

theorem children_radianPass (rpt : ℝ) (t : PhyloNode) :
    (radianPass rpt t).children = (t.children).map (radianPass rpt) := by
  cases t with
  | mk n d rs so cs =>
      cases cs with
      | nil => rfl
      | cons c cs =>
          simp only [radianPass, PhyloNode.children]
          exact radianPassList_eq_map rpt (c :: cs)

theorem subtreeAt_radianPass (rpt : ℝ) : ∀ (p : List Nat) (t : PhyloNode),
    subtreeAt p (radianPass rpt t) = (subtreeAt p t).map (radianPass rpt) := by
  intro p
  induction p with
  | nil => intro t; rfl
  | cons i p ih =>
      intro t
      simp only [subtreeAt, children_radianPass, List.getElem?_map]
      cases t.children[i]? with
      | none => rfl
      | some c => simpa using ih c

mutual

theorem radianSumOf_radianPass (rpt rpt2 : ℝ) : ∀ (t : PhyloNode),
    radianSumOf rpt (radianPass rpt2 t) = radianSumOf rpt t
  | .mk _ _ _ _ [] => rfl
  | .mk _ _ _ _ (c :: cs) => by
      have h := radianSumsOf_radianPassList rpt rpt2 (c :: cs)
      simpa [radianPass, radianSumOf, radianPassList] using h

theorem radianSumsOf_radianPassList (rpt rpt2 : ℝ) : ∀ (cs : List PhyloNode),
    radianSumsOf rpt (radianPassList rpt2 cs) = radianSumsOf rpt cs
  | [] => rfl
  | c :: cs => by
      simp only [radianPassList, radianSumsOf]
      rw [radianSumOf_radianPass rpt rpt2 c, radianSumsOf_radianPassList rpt rpt2 cs]

end

mutual

theorem ntipsOf_radianPass (rpt : ℝ) : ∀ (t : PhyloNode),
    ntipsOf (radianPass rpt t) = ntipsOf t
  | .mk _ _ _ _ [] => rfl
  | .mk _ _ _ _ (c :: cs) => by
      have h := ntipsList_radianPassList rpt (c :: cs)
      simpa [radianPass, ntipsOf, radianPassList] using h

theorem ntipsList_radianPassList (rpt : ℝ) : ∀ (cs : List PhyloNode),
    ntipsList (radianPassList rpt cs) = ntipsList cs
  | [] => rfl
  | c :: cs => by
      simp only [radianPassList, ntipsList]
      rw [ntipsOf_radianPass rpt c, ntipsList_radianPassList rpt cs]

end

theorem is_leaf_radianPass (rpt : ℝ) (t : PhyloNode) :
    (radianPass rpt t).is_leaf = t.is_leaf := by
  simp only [PhyloNode.is_leaf, children_radianPass]
  cases t.children <;> rfl

theorem children_sectorPass (rpt : ℝ) (t : PhyloNode) (sec : ℝ × ℝ) :
    (sectorPass rpt t sec).children = sectorPassList rpt t.children sec.1 := by
  cases t with
  | mk n d rs so cs => rfl

theorem sectorPassList_getElem (rpt : ℝ) : ∀ (cs : List PhyloNode) (start : ℝ) (i : Nat),
    (sectorPassList rpt cs start)[i]? =
      (cs[i]?).map (fun c =>
        sectorPass rpt c
          (start + radianSumsOf rpt (cs.take i),
           start + radianSumsOf rpt (cs.take i) + radianSumOf rpt c)) := by
  intro cs
  induction cs with
  | nil => intro start i; rfl
  | cons c cs ih =>
      intro start i
      cases i with
      | zero => simp [sectorPassList, radianSumsOf]
      | succ i =>
          simp only [sectorPassList, List.getElem?_cons_succ, List.take_succ_cons,
            radianSumsOf]
          rw [ih (start + radianSumOf rpt c) i]
          cases cs[i]? with
          | none => rfl
          | some ci =>
              simp only [Option.map_some']
              congr 1
              rw [add_assoc]

theorem subtreeAt_sectorPass (rpt : ℝ) : ∀ (p : List Nat) (t : PhyloNode) (a b : ℝ)
    (c : PhyloNode), subtreeAt p t = some c →
      subtreeAt p (sectorPass rpt t (a, b)) =
        some (sectorPass rpt c (sectorFor rpt p t a b c)) := by
  intro p
  induction p with
  | nil =>
      intro t a b c h
      have hc : t = c := by simpa [subtreeAt] using h
      subst hc
      simp [subtreeAt, sectorFor]
  | cons i p ih =>
      intro t a b c h
      simp only [subtreeAt] at h
      cases hci : t.children[i]? with
      | none => rw [hci] at h; simp at h
      | some ci =>
          rw [hci] at h
          simp only [subtreeAt, children_sectorPass, sectorPassList_getElem, hci,
            Option.map_some']
          rw [ih ci (a + radianSumsOf rpt (t.children.take i))
            (a + radianSumsOf rpt (t.children.take i) + radianSumOf rpt ci) c h]
          congr 1
          cases p with
          | nil =>
              have hc : ci = c := by simpa [subtreeAt] using h
              subst hc
              simp [sectorFor, sectorStartR, hci]
          | cons j q =>
              simp [sectorFor, sectorStartR, hci]

theorem equal_angle_tree_eq (t : PhyloNode) :
    equal_angle_tree t =
      sectorPass (rptOf t) (radianPass (rptOf t) t) (0, 2 * Real.pi) := rfl

theorem subtreeAt_equal_angle (t : PhyloNode) (p : List Nat) (c : PhyloNode)
    (h : subtreeAt p t = some c) :
    subtreeAt p (equal_angle_tree t) =
      some (sectorPass (rptOf t) (radianPass (rptOf t) c)
        (sectorFor (rptOf t) p (radianPass (rptOf t) t) 0 (2 * Real.pi)
          (radianPass (rptOf t) c))) := by
  have h2 : subtreeAt p (radianPass (rptOf t) t) = some (radianPass (rptOf t) c) := by
    rw [subtreeAt_radianPass, h]; rfl
  rw [equal_angle_tree_eq]
  exact subtreeAt_sectorPass (rptOf t) p (radianPass (rptOf t) t) 0 (2 * Real.pi)
    (radianPass (rptOf t) c) h2

theorem sectorAt_formula (t : PhyloNode) (p : List Nat) (c : PhyloNode)
    (h : subtreeAt p t = some c) :
    sectorAt t p =
      some (sectorFor (rptOf t) p (radianPass (rptOf t) t) 0 (2 * Real.pi)
        (radianPass (rptOf t) c)) := by
  rw [sectorAt, subtreeAt_equal_angle t p c h]
  simp [sector_of_sectorPass]

theorem ntipsOf_cast_ne_zero (t : PhyloNode) : ((ntipsOf t : ℝ)) ≠ 0 := by
  have h := ntipsOf_pos t
  exact_mod_cast Nat.pos_iff_ne_zero.mp (by omega)

theorem sectorSizeAt_formula (t : PhyloNode) (p : List Nat) (c : PhyloNode)
    (h : subtreeAt p t = some c) :
    sectorSizeAt t p = some ((ntipsOf c : ℝ) * rptOf t) := by
  rw [sectorSizeAt, sectorAt_formula t p c h]
  cases p with
  | nil =>
      have hc : t = c := by simpa [subtreeAt] using h
      subst hc
      simp only [sectorFor, if_pos rfl, Option.map_some']
      have hn := ntipsOf_cast_ne_zero t
      rw [rptOf]
      field_simp
  | cons i q =>
      simp only [sectorFor, reduceCtorEq, if_false, Option.map_some']
      rw [radianSumOf_radianPass, radianSumOf_eq]
      simp

theorem subtreeAt_append (p q : List Nat) : ∀ (t : PhyloNode),
    subtreeAt (p ++ q) t = (subtreeAt p t).bind (subtreeAt q) := by
  induction p with
  | nil => intro t; rfl
  | cons i p ih =>
      intro t
      simp only [List.cons_append, subtreeAt]
      cases t.children[i]? with
      | none => rfl
      | some ci => exact ih ci

theorem sectorStartR_snoc (rpt : ℝ) (i : Nat) : ∀ (p : List Nat) (t : PhyloNode)
    (a : ℝ) (c ci : PhyloNode), subtreeAt p t = some c →
      c.children[i]? = some ci →
      sectorStartR rpt (p ++ [i]) t a =
        sectorStartR rpt p t a + radianSumsOf rpt (c.children.take i) := by
  intro p
  induction p with
  | nil =>
      intro t a c ci h hci
      have hc : t = c := by simpa [subtreeAt] using h
      subst hc
      simp [sectorStartR, hci]
  | cons j q ih =>
      intro t a c ci h hci
      simp only [subtreeAt] at h
      cases hcj : t.children[j]? with
      | none => rw [hcj] at h; simp at h
      | some cj =>
          rw [hcj] at h
          simp only [List.cons_append, sectorStartR, hcj]
          exact ih cj (a + radianSumsOf rpt (t.children.take j)) c ci h hci

theorem sectorFor_fst (rpt : ℝ) (p : List Nat) (t : PhyloNode) (a b : ℝ)
    (c : PhyloNode) : (sectorFor rpt p t a b c).1 = sectorStartR rpt p t a := by
  cases p with
  | nil => simp [sectorFor, sectorStartR]
  | cons i q => simp [sectorFor]

theorem radianSumOf_internal (rpt : ℝ) (c : PhyloNode) (h : c.is_leaf = false) :
    radianSumOf rpt c = radianSumsOf rpt c.children := by
  cases c with
  | mk n d rs so cs =>
      cases cs with
      | nil => simp [PhyloNode.is_leaf, PhyloNode.children] at h
      | cons c2 cs => rfl

theorem ntipsOf_leaf (c : PhyloNode) (h : c.is_leaf = true) : ntipsOf c = 1 := by
  cases c with
  | mk n d rs so cs =>
      cases cs with
      | nil => rfl
      | cons c2 cs => simp [PhyloNode.is_leaf, PhyloNode.children] at h

theorem sectorAt_child (t : PhyloNode) (p : List Nat) (c ci : PhyloNode) (i : Nat)
    (h : subtreeAt p t = some c) (hci : c.children[i]? = some ci) :
    sectorAt t (p ++ [i]) =
      some (sectorStartR (rptOf t) p (radianPass (rptOf t) t) 0 +
              radianSumsOf (rptOf t) (c.children.take i),
            sectorStartR (rptOf t) p (radianPass (rptOf t) t) 0 +
              radianSumsOf (rptOf t) (c.children.take i) +
              radianSumOf (rptOf t) ci) := by
  have hsub : subtreeAt (p ++ [i]) t = some ci := by
    rw [subtreeAt_append, h]
    simp [subtreeAt, hci]
  rw [sectorAt_formula t (p ++ [i]) ci hsub]
  have hchild : (radianPass (rptOf t) c).children[i]? =
      some (radianPass (rptOf t) ci) := by
    rw [children_radianPass, List.getElem?_map, hci]; rfl
  have hsub2 : subtreeAt p (radianPass (rptOf t) t) =
      some (radianPass (rptOf t) c) := by
    rw [subtreeAt_radianPass, h]; rfl
  have hsnoc := sectorStartR_snoc (rptOf t) i p (radianPass (rptOf t) t) 0
    (radianPass (rptOf t) c) (radianPass (rptOf t) ci) hsub2 hchild
  have htake : radianSumsOf (rptOf t) (((radianPass (rptOf t) c).children).take i) =
      radianSumsOf (rptOf t) (c.children.take i) := by
    rw [children_radianPass, ← List.map_take, ← radianPassList_eq_map,
      radianSumsOf_radianPassList]
  simp only [sectorFor, reduceCtorEq, List.append_ne_nil_of_right_ne_nil,
    if_false, if_neg (by simp : ¬ (p ++ [i] = []))]
  rw [hsnoc, htake, radianSumOf_radianPass]

/-- C4: in the equal-angle unrooted layout, the root holds the full
sector from 0 to 2*pi and its accumulated angular weight is exactly 2*pi
(the tip sector sizes sum to 2*pi for any tree); every tip is assigned a
sector of size exactly 2*pi/ntips; every node's sector size is its
descendant tip count times 2*pi/ntips (proportionality); and every
internal node's sector is the gap-free concatenation of its children's
sectors in stored child order: child i starts at the parent's sector start
plus the weights of the earlier siblings, spans its own weight, and the
children of an internal node exactly fill the parent's sector. -/
theorem equal_angle_sector_thm (t : PhyloNode) :
    sectorAt t [] = some (0, 2 * Real.pi) ∧
    radianSumOf (rptOf t) t = 2 * Real.pi ∧
    (∀ p c, subtreeAt p t = some c → c.is_leaf = true →
      sectorSizeAt t p = some (2 * Real.pi / (ntipsOf t : ℝ))) ∧
    (∀ p c, subtreeAt p t = some c →
      sectorSizeAt t p = some ((ntipsOf c : ℝ) * (2 * Real.pi / (ntipsOf t : ℝ)))) ∧
    (∀ p c a b, subtreeAt p t = some c → sectorAt t p = some (a, b) →
      (∀ i ci, c.children[i]? = some ci →
        sectorAt t (p ++ [i]) =
          some (a + radianSumsOf (rptOf t) (c.children.take i),
                a + radianSumsOf (rptOf t) (c.children.take i) +
                  radianSumOf (rptOf t) ci)) ∧
      (c.is_leaf = false → a + radianSumsOf (rptOf t) c.children = b)) := by
  refine ⟨?_, ?_, ?_, ?_, ?_⟩
  · rw [sectorAt_formula t [] t rfl]
    simp [sectorFor]
  · rw [radianSumOf_eq, rptOf]
    have hn := ntipsOf_cast_ne_zero t
    field_simp
  · intro p c h hleaf
    rw [sectorSizeAt_formula t p c h, ntipsOf_leaf c hleaf, rptOf]
    simp
  · intro p c h
    rw [sectorSizeAt_formula t p c h, rptOf]
  · intro p c a b h hab
    have hform := sectorAt_formula t p c h
    have hpair : (a, b) =
        sectorFor (rptOf t) p (radianPass (rptOf t) t) 0 (2 * Real.pi)
          (radianPass (rptOf t) c) := by
      have h2 := hab.symm.trans hform
      exact Option.some.inj h2
    have ha : a = sectorStartR (rptOf t) p (radianPass (rptOf t) t) 0 := by
      have := congrArg Prod.fst hpair
      rwa [sectorFor_fst] at this
    constructor
    · intro i ci hci
      rw [sectorAt_child t p c ci i h hci, ha]
    · intro hleaf
      have hsize : sectorSizeAt t p = some ((ntipsOf c : ℝ) * rptOf t) :=
        sectorSizeAt_formula t p c h
      rw [sectorSizeAt, hab] at hsize
      simp only [Option.map_some'] at hsize
      have hba : b - a = (ntipsOf c : ℝ) * rptOf t := Option.some.inj hsize
      have hrs : radianSumsOf (rptOf t) c.children = (ntipsOf c : ℝ) * rptOf t := by
        rw [← radianSumOf_internal (rptOf t) c hleaf, radianSumOf_eq]
      rw [hrs]
      linarith

/-- Witness for the C4 theorem at the concrete input: in the balanced
4-tip tree ((A,B),(C,D)); the tip A (path [0,0]) is a leaf and its sector
size is exactly 2*pi/4. -/
theorem equal_angle_sector_witness :
    (subtreeAt [0, 0] tree4 = some (leafN "A")) ∧
    ((leafN "A").is_leaf = true) ∧
    sectorSizeAt tree4 [0, 0] = some (2 * Real.pi / (ntipsOf tree4 : ℝ)) :=
  ⟨rfl, rfl, ((equal_angle_sector_thm tree4).2.2.1) [0, 0] (leafN "A") rfl rfl⟩

theorem compatClades_symm (c d : Clade) (h : compatClades c d = true) :
    compatClades d c = true := by
  simp only [compatClades, Bool.or_eq_true, decide_eq_true_eq] at h ⊢
  rcases h with (h | h) | h
  · exact Or.inl (Or.inr h)
  · exact Or.inl (Or.inl h)
  · exact Or.inr (by rwa [Finset.inter_comm])

theorem greedy_accept_mem_acc (cutoff : ℚ) (fr : Clade → ℚ) :
    ∀ (l acc : List Clade) (c : Clade), c ∈ acc →
      c ∈ greedy_accept cutoff fr acc l := by
  intro l
  induction l with
  | nil => intro acc c hc; simpa [greedy_accept] using hc
  | cons e rest ih =>
      intro acc c hc
      by_cases ht : (acc.all (fun d => compatClades e d) && decide (cutoff ≤ fr e) : Bool)
      · simp only [greedy_accept, ht, if_true]
        exact ih (acc ++ [e]) c (by simp [hc])
      · simp only [greedy_accept, ht, Bool.false_eq_true, if_false]
        exact ih acc c hc

theorem greedy_accept_mem (cutoff : ℚ) (fr : Clade → ℚ) :
    ∀ (l acc : List Clade) (c : Clade), c ∈ greedy_accept cutoff fr acc l →
      c ∈ acc ∨ (c ∈ l ∧ cutoff ≤ fr c) := by
  intro l
  induction l with
  | nil => intro acc c hc; exact Or.inl (by simpa [greedy_accept] using hc)
  | cons e rest ih =>
      intro acc c hc
      by_cases ht : (acc.all (fun d => compatClades e d) && decide (cutoff ≤ fr e) : Bool)
      · simp only [greedy_accept, ht, if_true] at hc
        rcases ih (acc ++ [e]) c hc with h1 | h1
        · rcases List.mem_append.mp h1 with h2 | h2
          · exact Or.inl h2
          · have he : c = e := by simpa using h2
            subst he
            have hf : cutoff ≤ fr c := by
              have := (Bool.and_eq_true _ _).mp ht
              exact of_decide_eq_true this.2
            exact Or.inr ⟨by simp, hf⟩
        · exact Or.inr ⟨by simp [h1.1], h1.2⟩
      · simp only [greedy_accept, ht, Bool.false_eq_true, if_false] at hc
        rcases ih acc c hc with h1 | h1
        · exact Or.inl h1
        · exact Or.inr ⟨by simp [h1.1], h1.2⟩

theorem greedy_accept_pairwise (cutoff : ℚ) (fr : Clade → ℚ) :
    ∀ (l acc : List Clade),
      acc.Pairwise (fun a b => compatClades a b = true) →
      (greedy_accept cutoff fr acc l).Pairwise (fun a b => compatClades a b = true) := by
  intro l
  induction l with
  | nil => intro acc h; simpa [greedy_accept] using h
  | cons e rest ih =>
      intro acc h
      by_cases ht : (acc.all (fun d => compatClades e d) && decide (cutoff ≤ fr e) : Bool)
      · simp only [greedy_accept, ht, if_true]
        refine ih (acc ++ [e]) ?_
        rw [List.pairwise_append]
        refine ⟨h, by simp, ?_⟩
        intro a ha b hb
        have hb2 : b = e := by simpa using hb
        rw [hb2]
        have hall := (Bool.and_eq_true _ _).mp ht
        have h3 := List.all_eq_true.mp hall.1 a ha
        exact compatClades_symm e a (by simpa using h3)
      · simp only [greedy_accept, ht, Bool.false_eq_true, if_false]
        exact ih acc h

theorem greedy_accept_mem_of_compat (cutoff : ℚ) (fr : Clade → ℚ) :
    ∀ (l acc : List Clade) (c : Clade), c ∈ l → cutoff ≤ fr c →
      (∀ d ∈ acc, compatClades c d = true) →
      (∀ d ∈ l, compatClades c d = true) →
      c ∈ greedy_accept cutoff fr acc l := by
  intro l
  induction l with
  | nil => intro acc c hc; simp at hc
  | cons e rest ih =>
      intro acc c hc hf hacc hl
      by_cases ht : (acc.all (fun d => compatClades e d) && decide (cutoff ≤ fr e) : Bool)
      · simp only [greedy_accept, ht, if_true]
        rcases List.mem_cons.mp hc with he | he
        · subst he
          exact greedy_accept_mem_acc cutoff fr rest (acc ++ [c]) c (by simp)
        · refine ih (acc ++ [e]) c he hf ?_ ?_
          · intro d hd
            rcases List.mem_append.mp hd with h1 | h1
            · exact hacc d h1
            · have : d = e := by simpa using h1
              subst this
              exact hl d (by simp)
          · intro d hd; exact hl d (by simp [hd])
      · simp only [greedy_accept, ht, Bool.false_eq_true, if_false]
        rcases List.mem_cons.mp hc with he | he
        · subst he
          exfalso
          have h1 : acc.all (fun d => compatClades c d) = true :=
            List.all_eq_true.mpr (fun d hd => by simpa using hacc d hd)
          have h2 : decide (cutoff ≤ fr c) = true := decide_eq_true hf
          rw [h1, h2] at ht
          simp at ht
        · refine ih acc c he hf hacc ?_
          intro d hd; exact hl d (by simp [hd])

theorem min_by_card_isSome : ∀ (l : List Clade), l ≠ [] →
    ∃ c, min_by_card l = some c := by
  intro l hl
  cases l with
  | nil => exact absurd rfl hl
  | cons e rest =>
      simp only [min_by_card]
      cases min_by_card rest with
      | none => exact ⟨e, rfl⟩
      | some d =>
          by_cases h : e.card ≤ d.card
          · exact ⟨e, by rw [show (match some d with
              | none => some e
              | some d => if e.card ≤ d.card then some e else some d) =
                (if e.card ≤ d.card then some e else some d) from rfl, if_pos h]⟩
          · exact ⟨d, by rw [show (match some d with
              | none => some e
              | some d => if e.card ≤ d.card then some e else some d) =
                (if e.card ≤ d.card then some e else some d) from rfl, if_neg h]⟩

theorem min_by_card_mem : ∀ (l : List Clade) (c : Clade),
    min_by_card l = some c → c ∈ l := by
  intro l
  induction l with
  | nil => intro c hc; simp [min_by_card] at hc
  | cons e rest ih =>
      intro c hc
      simp only [min_by_card] at hc
      cases hm : min_by_card rest with
      | none =>
          rw [hm] at hc
          replace hc : some e = some c := hc
          simp at hc
          simp [hc]
      | some d =>
          rw [hm] at hc
          replace hc : (if e.card ≤ d.card then some e else some d) = some c := hc
          by_cases hcd : e.card ≤ d.card
          · rw [if_pos hcd] at hc
            simp at hc
            simp [hc]
          · rw [if_neg hcd] at hc
            simp at hc
            exact List.mem_cons_of_mem e (ih c (by rw [hm, hc]))

theorem min_by_card_min : ∀ (l : List Clade) (c : Clade),
    min_by_card l = some c → ∀ d ∈ l, c.card ≤ d.card := by
  intro l
  induction l with
  | nil => intro c hc; simp [min_by_card] at hc
  | cons e rest ih =>
      intro c hc d hd
      simp only [min_by_card] at hc
      cases hm : min_by_card rest with
      | none =>
          rw [hm] at hc
          replace hc : some e = some c := hc
          simp at hc
          subst hc
          rcases List.mem_cons.mp hd with h1 | h1
          · rw [h1]
          · exfalso
            cases rest with
            | nil => simp at h1
            | cons f fs =>
                obtain ⟨m, hm2⟩ := min_by_card_isSome (f :: fs) (by simp)
                rw [hm2] at hm
                simp at hm
      | some m =>
          rw [hm] at hc
          replace hc : (if e.card ≤ m.card then some e else some m) = some c := hc
          by_cases hcm : e.card ≤ m.card
          · rw [if_pos hcm] at hc
            simp at hc
            subst hc
            rcases List.mem_cons.mp hd with h1 | h1
            · rw [h1]
            · exact le_trans hcm (ih m hm d h1)
          · rw [if_neg hcm] at hc
            simp at hc
            rcases List.mem_cons.mp hd with h1 | h1
            · rw [h1, ← hc]; omega
            · rw [← hc]; exact ih m hm d h1

mutual

theorem cladesOf_subset : ∀ (t : PhyloNode) (c : Clade), c ∈ cladesOf t →
    c ⊆ leafSetOf t
  | .mk n d rs so [], c, hc => by simp [cladesOf] at hc
  | .mk n d rs so (c0 :: cs), c, hc => by
      simp only [cladesOf, List.mem_cons] at hc
      rcases hc with h1 | h1
      · rw [h1]
      · have h2 := cladesList_subset (c0 :: cs) c h1
        intro x hx
        have h3 := h2 hx
        simpa [leafSetOf, leafNames] using h3

theorem cladesList_subset : ∀ (cs : List PhyloNode) (c : Clade), c ∈ cladesList cs →
    c ⊆ (leafNamesList cs).toFinset
  | [], c, hc => by simp [cladesList] at hc
  | c0 :: cs, c, hc => by
      simp only [cladesList, List.mem_append] at hc
      rcases hc with h1 | h1
      · have h2 := cladesOf_subset c0 c h1
        intro x hx
        have h3 := h2 hx
        simp only [leafSetOf, List.mem_toFinset] at h3
        simp [leafNamesList, h3]
      · have h2 := cladesList_subset cs c h1
        intro x hx
        have h3 := h2 hx
        simp only [List.mem_toFinset] at h3
        simp [leafNamesList, h3]

end

theorem root_clade_mem (t : PhyloNode) (h : t.is_leaf = false) :
    leafSetOf t ∈ cladesOf t := by
  cases t with
  | mk n d rs so cs =>
      cases cs with
      | nil => simp [PhyloNode.is_leaf, PhyloNode.children] at h
      | cons c0 cs => simp [cladesOf]

theorem freq_full (trees : List PhyloNode) (T : Clade)
    (hne : trees ≠ [])
    (htips : ∀ t ∈ trees, leafSetOf t = T)
    (hint : ∀ t ∈ trees, t.is_leaf = false) :
    freq trees T = 1 := by
  have hcount : trees.countP (fun t => decide (T ∈ cladesOf t)) = trees.length := by
    rw [List.countP_eq_length]
    intro t ht
    have h1 := root_clade_mem t (hint t ht)
    rw [htips t ht] at h1
    simpa using h1
  rw [freq, hcount]
  have hlen : (trees.length : ℚ) ≠ 0 := by
    have : trees.length ≠ 0 := by
      cases trees with
      | nil => exact absurd rfl hne
      | cons a l => simp
    exact_mod_cast this
  field_simp

theorem candidate_clades_subset (trees : List PhyloNode) (T : Clade)
    (htips : ∀ t ∈ trees, leafSetOf t = T) :
    ∀ c ∈ candidate_clades trees, c ⊆ T := by
  intro c hc
  rw [candidate_clades, List.mem_dedup] at hc
  rw [List.mem_flatten] at hc
  obtain ⟨cl, hcl, hccl⟩ := hc
  rw [List.mem_map] at hcl
  obtain ⟨t, ht, hteq⟩ := hcl
  rw [← hteq] at hccl
  have := cladesOf_subset t c hccl
  rwa [htips t ht] at this

theorem sorted_candidates_mem (trees : List PhyloNode) (c : Clade) :
    c ∈ sorted_candidates trees ↔ c ∈ candidate_clades trees := by
  rw [sorted_candidates]
  exact (List.perm_insertionSort _ _).mem_iff

/-- C5: for a non-empty collection of trees sharing the tip set T (roots
internal) and a cutoff at most 1, every accepted (resolved) clade of the
majority-rule consensus has support at least the cutoff; clades with
frequency below the cutoff are never kept as resolved clades; and every
tip is attached directly under its nearest accepted ancestor (the unique
smallest accepted clade containing it) as one of that node's direct tip
children, and under no other accepted node — this is the collapse of
low-support clades into polytomies.  (The ConsensusTree class is not
among the provided sources; the algorithm is modelled from spec section
4.3.) -/
theorem consensus_cutoff_collapse_thm (trees : List PhyloNode) (cutoff : ℚ)
    (T : Clade)
    (hne : trees ≠ [])
    (htips : ∀ t ∈ trees, leafSetOf t = T)
    (hint : ∀ t ∈ trees, t.is_leaf = false)
    (hc1 : cutoff ≤ 1) :
    (∀ c ∈ accepted_clades trees cutoff, cutoff ≤ freq trees c) ∧
    (∀ c, freq trees c < cutoff → c ∉ accepted_clades trees cutoff) ∧
    (∀ x ∈ T, ∃ n, nearest_accepted (accepted_clades trees cutoff) x = some n ∧
      n ∈ accepted_clades trees cutoff ∧ x ∈ n ∧
      (∀ d ∈ accepted_clades trees cutoff,
        x ∈ direct_tips (accepted_clades trees cutoff) d ↔ d = n)) := by
  have hpart1 : ∀ c ∈ accepted_clades trees cutoff, cutoff ≤ freq trees c := by
    intro c hc
    rcases greedy_accept_mem cutoff (freq trees) (sorted_candidates trees) [] c hc
      with h | h
    · simp at h
    · exact h.2
  refine ⟨hpart1, ?_, ?_⟩
  · intro c hlt hc
    have := hpart1 c hc
    linarith
  · -- the full tip set is always accepted
    have hTmem : T ∈ accepted_clades trees cutoff := by
      cases trees with
      | nil => exact absurd rfl hne
      | cons t0 rest =>
          have hT1 : T ∈ candidate_clades (t0 :: rest) := by
            rw [candidate_clades, List.mem_dedup, List.mem_flatten]
            refine ⟨cladesOf t0, List.mem_map.mpr ⟨t0, by simp, rfl⟩, ?_⟩
            have h1 := root_clade_mem t0 (hint t0 (by simp))
            rwa [htips t0 (by simp)] at h1
          have hT2 : T ∈ sorted_candidates (t0 :: rest) :=
            (sorted_candidates_mem (t0 :: rest) T).mpr hT1
          apply greedy_accept_mem_of_compat cutoff (freq (t0 :: rest))
            (sorted_candidates (t0 :: rest)) [] T hT2
          · rw [freq_full (t0 :: rest) T hne htips hint]
            exact hc1
          · intro d hd; simp at hd
          · intro d hd
            have hdc : d ⊆ T := candidate_clades_subset (t0 :: rest) T htips d
              ((sorted_candidates_mem (t0 :: rest) d).mp hd)
            simp only [compatClades, Bool.or_eq_true, decide_eq_true_eq]
            exact Or.inl (Or.inr hdc)
    have hpw : (accepted_clades trees cutoff).Pairwise
        (fun a b => compatClades a b = true) :=
      greedy_accept_pairwise cutoff (freq trees) (sorted_candidates trees) []
        (by simp)
    have hnested : ∀ c ∈ accepted_clades trees cutoff,
        ∀ d ∈ accepted_clades trees cutoff,
        ∀ x : String, x ∈ c → x ∈ d → c ⊆ d ∨ d ⊆ c := by
      intro c hc d hd x hxc hxd
      by_cases hcd : c = d
      · exact Or.inl (by rw [hcd])
      · have hcompat := hpw.forall
          (fun a b hab => compatClades_symm a b hab) hc hd hcd
        simp only [compatClades, Bool.or_eq_true, decide_eq_true_eq] at hcompat
        rcases hcompat with (h | h) | h
        · exact Or.inl h
        · exact Or.inr h
        · exfalso
          have : x ∈ c ∩ d := Finset.mem_inter.mpr ⟨hxc, hxd⟩
          rw [h] at this
          simp at this
    intro x hx
    have hTS : T ∈ (accepted_clades trees cutoff).filter
        (fun c => decide (x ∈ c)) :=
      List.mem_filter.mpr ⟨hTmem, by simpa using hx⟩
    obtain ⟨n, hn⟩ := min_by_card_isSome
      ((accepted_clades trees cutoff).filter (fun c => decide (x ∈ c)))
      (by intro h; rw [h] at hTS; simp at hTS)
    have hnS := min_by_card_mem _ n hn
    have hnA : n ∈ accepted_clades trees cutoff := (List.mem_filter.mp hnS).1
    have hxn : x ∈ n := by
      have := (List.mem_filter.mp hnS).2
      simpa using this
    refine ⟨n, hn, hnA, hxn, ?_⟩
    intro d hd
    constructor
    · intro hxd
      have hxd2 : x ∈ d := (Finset.mem_filter.mp hxd).1
      by_contra hne2
      rcases hnested d hd n hnA x hxd2 hxn with hsub | hsub
      · have hdS : d ∈ (accepted_clades trees cutoff).filter
            (fun c => decide (x ∈ c)) :=
          List.mem_filter.mpr ⟨hd, by simpa using hxd2⟩
        have hmin := min_by_card_min _ n hn d hdS
        have hss : d ⊂ n := Finset.ssubset_iff_subset_ne.mpr ⟨hsub, hne2⟩
        have := Finset.card_lt_card hss
        omega
      · have hss : n ⊂ d :=
          Finset.ssubset_iff_subset_ne.mpr ⟨hsub, fun h => hne2 h.symm⟩
        have hno := (Finset.mem_filter.mp hxd).2
        exact hno ⟨n, hnA, hss, hxn⟩
    · intro hdn
      rw [hdn, direct_tips, Finset.mem_filter]
      refine ⟨hxn, ?_⟩
      rintro ⟨e, heA, hess, hxe⟩
      have heS : e ∈ (accepted_clades trees cutoff).filter
          (fun c => decide (x ∈ c)) :=
        List.mem_filter.mpr ⟨heA, by simpa using hxe⟩
      have hmin := min_by_card_min _ n hn e heS
      have := Finset.card_lt_card hess
      omega

/-- Witness for the C5 theorem at the concrete input of the spec's
consensus example: trees (((A,B),C),D);, (((A,B),C),D);, ((A,(B,C)),D);
with cutoff 1/2 and tip A. -/
theorem consensus_cutoff_collapse_witness :
    ((∀ t ∈ [treeABCD, treeABCD, treeABCD2],
        leafSetOf t = ({"A", "B", "C", "D"} : Finset String)) ∧
     (∀ t ∈ [treeABCD, treeABCD, treeABCD2], PhyloNode.is_leaf t = false) ∧
     ((1 : ℚ) / 2 ≤ 1) ∧ "A" ∈ ({"A", "B", "C", "D"} : Finset String)) ∧
    ((∀ c ∈ accepted_clades [treeABCD, treeABCD, treeABCD2] (1 / 2),
        1 / 2 ≤ freq [treeABCD, treeABCD, treeABCD2] c) ∧
     (∀ c, freq [treeABCD, treeABCD, treeABCD2] c < 1 / 2 →
        c ∉ accepted_clades [treeABCD, treeABCD, treeABCD2] (1 / 2)) ∧
     (∀ x ∈ ({"A", "B", "C", "D"} : Finset String), ∃ n,
        nearest_accepted (accepted_clades [treeABCD, treeABCD, treeABCD2] (1 / 2))
          x = some n ∧
        n ∈ accepted_clades [treeABCD, treeABCD, treeABCD2] (1 / 2) ∧ x ∈ n ∧
        (∀ d ∈ accepted_clades [treeABCD, treeABCD, treeABCD2] (1 / 2),
          x ∈ direct_tips
              (accepted_clades [treeABCD, treeABCD, treeABCD2] (1 / 2)) d ↔
            d = n))) :=
  ⟨⟨by decide, by decide, by norm_num, by decide⟩,
    consensus_cutoff_collapse_thm [treeABCD, treeABCD, treeABCD2] (1 / 2)
      ({"A", "B", "C", "D"} : Finset String) (by simp) (by decide) (by decide)
      (by norm_num)⟩
